import Mathlib

/-!
Shallow embedding of `detect_colors.py` (shegocodes/color-vision).

The program is a linear pipeline: resize an image, tally pixel colors,
match tallied colors against a reference palette (L1 distance), and
resolve matched codes to color names.  Machine integers are modelled as
`Nat`/`Int`; Python's `int((a * t) / b)` on nonnegative operands is
modelled as `Nat` floor division (exact on the relevant domain);
fallible steps (`min` on an empty list, `.values[0]` on an empty
selection) are modelled with `Except`, using the error names of the
design document (`EmptyPaletteError`, `UnknownCodeError`).
-/

namespace ColorVision

/-- A pixel color: an (R, G, B) triple of integers.  In the source the
tally keys are the strings `f'{r}:{g}:{b}'`; the string round-trip
(`split(':')` then `int`) is the identity on the triple, so the triple
itself is the faithful key. -/
structure RGB where
  r : Nat
  g : Nat
  b : Nat
deriving DecidableEq

/-- One row of the reference palette (`colors.csv`): columns
`color`, `code`, `R`, `G`, `B`. -/
structure Row where
  color : String
  code : String
  R : Int
  G : Int
  B : Int
deriving DecidableEq

/-- `resize_image` (source lines 10–35).  Note the source returns the
pair `(new_height, new_width)` in that order — in both branches — and
the caller (line 62) binds `width, height` to the result.  The two
sequential `if`s of the source always assign `new_width`/`new_height`
(one of the dimensions equals the max), and on square inputs the
`width == max_dim` branch runs last and overwrites, which is what the
`if width = max width height` split below reproduces. -/
def resize_image (width height threshold : Nat) : Nat × Nat :=
  if width > threshold ∨ height > threshold then
    if width = max width height then
      (height * threshold / width, threshold)
    else
      (threshold, width * threshold / height)
  else (height, width)

/-- The pixel positions visited by the scan of `detect_colors`
(source lines 68–69): `x` is the outer (major) loop over `range(width)`,
`y` the inner (minor) loop over `range(height)`. -/
def scanPositions (w h : Nat) : List (Nat × Nat) :=
  (List.range w).flatMap fun x => (List.range h).map fun y => (x, y)

/-- The sequence of pixel colors in scan order, for a pixel accessor
`img` (modelling `image.getpixel`). -/
def scanColors (img : Nat → Nat → RGB) (w h : Nat) : List RGB :=
  (scanPositions w h).map fun p => img p.1 p.2

/-- One update of the insertion-ordered counting dict
(source lines 73–76): an existing key's count is bumped in place, a new
key is appended at the end (Python dicts preserve insertion order). -/
def bump (acc : List (RGB × Nat)) (c : RGB) : List (RGB × Nat) :=
  if c ∈ acc.map Prod.fst then
    acc.map fun p => if p.1 = c then (p.1, p.2 + 1) else p
  else acc ++ [(c, 1)]

/-- The counting dict after the full pixel scan (source lines 67–76),
as an insertion-ordered association list. -/
def tallyMap (img : Nat → Nat → RGB) (w h : Nat) : List (RGB × Nat) :=
  (scanColors img w h).foldl bump []

/-- The comparison used to model
`sorted(detected_colors.items(), key=lambda x: x[1], reverse=True)`
(source line 79): stable descending sort on the count. -/
def countDesc (a b : RGB × Nat) : Bool := b.2 ≤ a.2

/-- `detect_colors` from the resized dimensions on (source lines 67–81):
tally the pixels, then stably sort by descending count.  Python's
`sorted` is a stable sort, which `mergeSort` models. -/
def detect_colors (img : Nat → Nat → RGB) (w h : Nat) : List (RGB × Nat) :=
  (tallyMap img w h).mergeSort countDesc

/-- `EmptyPaletteError` of the design document: the source's
`min(color_map, ...)` on an empty `color_map` (empty palette) raises. -/
inductive MatchErr where
  | emptyPalette
deriving DecidableEq

/-- `UnknownCodeError` of the design document: the source's
`.values[0]` on an empty selection raises. -/
inductive ResolveErr where
  | unknownCode
deriving DecidableEq

/-- `row['code'].replace('#', '')` (source line 110): Python `replace`
removes every occurrence of the marker. -/
def stripHash (s : String) : String :=
  (s.toList.filter fun ch => ch ≠ '#').asString

/-- One entry of the source's `color_map` (line 113):
`{'color': ..., 'code': ..., 'distance': ...}`. -/
structure Entry where
  color : String
  code : String
  distance : Nat
deriving DecidableEq

/-- The distance computed at source lines 104–106 and 113:
`abs(r_d - R) + abs(g_d - G) + abs(b_d - B)`. -/
def l1dist (d : RGB) (row : Row) : Nat :=
  ((d.r : Int) - row.R).natAbs + ((d.g : Int) - row.G).natAbs
    + ((d.b : Int) - row.B).natAbs

/-- The `color_map` entry built for one palette row (lines 103–113). -/
def colorMapEntry (d : RGB) (row : Row) : Entry :=
  { color := row.color, code := stripHash row.code, distance := l1dist d row }

/-- The full `color_map` for one detected color (lines 102–113). -/
def color_map (d : RGB) (colors : List Row) : List Entry :=
  colors.map (colorMapEntry d)

/-- Python's `min(l, key=key)`: keeps the first element attaining the
minimum key (replacement only on strict decrease); `none` on the empty
list, where Python raises `ValueError`. -/
def pymin (key : α → Nat) : List α → Option α
  | [] => none
  | a :: t => some (t.foldl (fun best x => if key x < key best then x else best) a)

/-- The fold inside `pymin`, exposed for reasoning: the running best
value over the tail `t`, starting from `a`. -/
def pyminNE (key : α → Nat) (a : α) (t : List α) : α :=
  t.foldl (fun best x => if key x < key best then x else best) a

/-- `best_match = min(color_map, key=lambda x: x['distance'])`
(source line 116). -/
def bestMatch (d : RGB) (colors : List Row) : Option Entry :=
  pymin Entry.distance (color_map d colors)

/-- The code the matcher would emit for one detected color, when the
palette is non-empty. -/
def bestCode? (d : RGB) (colors : List Row) : Option String :=
  (bestMatch d colors).map Entry.code

/-- One iteration of the loop of `get_color_codes`
(source lines 97–120): compute the best match and append its code if
not already present; an empty `color_map` (empty palette) raises. -/
def matchStep (colors : List Row) (acc : List String) (dc : RGB × Nat) :
    Except MatchErr (List String) :=
  match bestMatch dc.1 colors with
  | none => .error MatchErr.emptyPalette
  | some best => pure (if best.code ∈ acc then acc else acc ++ [best.code])

/-- `get_color_codes` (source lines 83–122), parameterized by the
palette the source reads from the global `colors` dataframe. -/
def get_color_codes (detected : List (RGB × Nat)) (colors : List Row) :
    Except MatchErr (List String) :=
  detected.foldlM (matchStep colors) []

/-- `colors[colors['code'] == f'#{color_code}']` followed by taking the
first row (source line 143): pandas boolean indexing preserves row
order and `.values[0]` takes the first value. -/
def lookupRow (colors : List Row) (c : String) : Option Row :=
  (colors.filter fun row => row.code = "#" ++ c).head?

/-- The name the resolver yields for a code present in the palette. -/
def resolvedName (colors : List Row) (c : String) : String :=
  ((lookupRow colors c).map Row.color).getD ""

/-- One iteration of the loop of `get_association`
(source lines 140–145): the absence of a matching row raises
(`IndexError` in the source, `UnknownCodeError` per the design). -/
def resolveStep (colors : List Row) (acc : List (String × String)) (c : String) :
    Except ResolveErr (List (String × String)) :=
  match lookupRow colors c with
  | none => .error ResolveErr.unknownCode
  | some row => pure (acc ++ [(row.color, "#" ++ c)])

/-- `get_association` (source lines 124–152).  The dataframe wrapping at
lines 148–150 is content-preserving; the rows are the pairs
`(color name, '#' + code)`. -/
def get_association (codes : List String) (colors : List Row) :
    Except ResolveErr (List (String × String)) :=
  codes.foldlM (resolveStep colors) []

/-- `detected_colors[0::10]` (source line 168): every tenth element,
starting at index 0. -/
def everyTenth (l : List α) : List α :=
  (l.enum.filter fun p => p.1 % 10 = 0).map Prod.snd

/-- An error anywhere in the pipeline after image loading. -/
inductive PipeErr where
  | matcher (e : MatchErr)
  | resolver (e : ResolveErr)
deriving DecidableEq

/-- The pipeline of `__main__` (source lines 154–174) after the image
has been loaded: resize, tally-and-sort, subsample by 10, match, and
resolve.  `W`, `H` are the original dimensions, `img` the pixel accessor
of the resized image. -/
def runPipeline (img : Nat → Nat → RGB) (W H : Nat) (colors : List Row) :
    Except PipeErr (List (String × String)) :=
  let dims := resize_image W H 100
  let detected := detect_colors img dims.1 dims.2
  match get_color_codes (everyTenth detected) colors with
  | .error e => .error (PipeErr.matcher e)
  | .ok codes =>
    match get_association codes colors with
    | .error e => .error (PipeErr.resolver e)
    | .ok res => .ok res

/-- A constant pixel accessor, used to instantiate theorems at concrete
inputs. -/
def constImg : Nat → Nat → RGB := fun _ _ => ⟨7, 7, 7⟩

/-- Spec-side notion used to state ordering claims: the subsequence of
first occurrences ("order is the order of first occurrence"). -/
def firstDedup [DecidableEq α] : List α → List α
  | [] => []
  | a :: l => a :: firstDedup (l.filter fun x => x ≠ a)
termination_by l => l.length
decreasing_by
  simp only [List.length_cons]
  exact Nat.lt_succ_of_le (List.length_filter_le _ _)

/-! ## Theorems -/

/-- **C1** (evidence of the code defect).  A 2 × 1 image is within the
threshold, yet the resize step used by the pipeline yields
`(width, height) = (1, 2)`: `resize_image` returns the pair
`(height, width)` — in both branches — while its own docstring promises
"the new width and height" and the caller binds `width, height` to the
result, so a non-square image has its dimensions exchanged instead of
left unchanged. -/
theorem resize_exchanges_dims : resize_image 2 1 100 = (1, 2) := rfl

/-- **C2**.  For original dimensions with `max (W, H) > 100`, the larger
resized dimension is exactly 100 and the other one is the original
smaller dimension times 100, divided by the original larger dimension
with truncation (floor division on naturals). -/
theorem resize_large_spec (W H : Nat) (h : 100 < max W H) :
    max (resize_image W H 100).1 (resize_image W H 100).2 = 100 ∧
    min (resize_image W H 100).1 (resize_image W H 100).2
      = min W H * 100 / max W H := by
  have hguard : W > 100 ∨ H > 100 := by
    rcases max_choice W H with hm | hm
    · exact Or.inl (hm ▸ h)
    · exact Or.inr (hm ▸ h)
  rw [resize_image, if_pos hguard]
  by_cases hW : W = max W H
  · rw [if_pos hW]
    have hHW : H ≤ W := by
      have := le_max_right W H
      rw [← hW] at this
      exact this
    have hWpos : 0 < W := by
      have : 100 < W := by rw [hW]; exact h
      omega
    have hle : H * 100 / W ≤ 100 := by
      have h1 : H * 100 ≤ W * 100 := Nat.mul_le_mul_right 100 hHW
      have h2 : H * 100 / W ≤ W * 100 / W := Nat.div_le_div_right h1
      rwa [Nat.mul_div_cancel_left 100 hWpos] at h2
    constructor
    · exact max_eq_right hle
    · rw [min_eq_left hle, min_eq_right hHW, ← hW]
  · rw [if_neg hW]
    have hH : max W H = H := by
      rcases max_choice W H with hm | hm
      · exact absurd hm.symm hW
      · exact hm
    have hWH : W ≤ H := by
      have := le_max_left W H
      rwa [hH] at this
    have hHpos : 0 < H := by
      have : 100 < H := by rw [← hH]; exact h
      omega
    have hle : W * 100 / H ≤ 100 := by
      have h1 : W * 100 ≤ H * 100 := Nat.mul_le_mul_right 100 hWH
      have h2 : W * 100 / H ≤ H * 100 / H := Nat.div_le_div_right h1
      rwa [Nat.mul_div_cancel_left 100 hHpos] at h2
    constructor
    · exact max_eq_left hle
    · rw [min_eq_right hle, min_eq_left hWH, hH]

/-- Witness for `resize_large_spec`, at original dimensions 300 × 200:
the resized pair is (66, 100). -/
theorem resize_large_spec_witness :
    100 < max 300 200 ∧
      (max (resize_image 300 200 100).1 (resize_image 300 200 100).2 = 100 ∧
       min (resize_image 300 200 100).1 (resize_image 300 200 100).2
         = min 300 200 * 100 / max 300 200) :=
  ⟨by decide, resize_large_spec 300 200 (by decide)⟩

/-- **C3** (counterexample to the claim as stated).  With an empty input
sequence of detected colors, the matcher applied to an empty palette
returns an empty output and raises nothing: the loop body of
`get_color_codes` — and with it the failing `min` over the empty
`color_map` — never runs, so not *every* call with an empty palette
raises `EmptyPaletteError`. -/
theorem matcher_empty_input_no_error :
    get_color_codes [] [] = Except.ok [] ∧
      get_color_codes [] [] ≠ Except.error MatchErr.emptyPalette :=
  ⟨rfl, fun hcontra => Except.noConfusion (Eq.trans rfl hcontra)⟩

/-- **C3** (amended).  For every *non-empty* input sequence of detected
colors, a call to the matcher with an empty reference palette raises
`EmptyPaletteError`. -/
theorem matcher_empty_palette_raises (d : RGB × Nat) (ds : List (RGB × Nat)) :
    get_color_codes (d :: ds) [] = Except.error MatchErr.emptyPalette := rfl

/-- Helper for `single_row_matcher`: once the single row's code is in
the accumulator, the remaining iterations leave it unchanged. -/
theorem gcc_single_row_aux (row : Row) (ds : List (RGB × Nat)) (acc : List String)
    (h : stripHash row.code ∈ acc) :
    ds.foldlM (matchStep [row]) acc = Except.ok acc := by
  induction ds with
  | nil => rfl
  | cons d ds ih =>
    have hstep : matchStep [row] acc d = Except.ok acc := by
      simp [matchStep, bestMatch, color_map, pymin, colorMapEntry, h]
      rfl
    rw [List.foldlM_cons, hstep]
    exact ih

/-- **C9**.  With a palette of exactly one row and a non-empty sampled
sequence of detected colors, the matcher returns exactly the one-element
list holding that row's marker-stripped code, whatever the colors are. -/
theorem single_row_matcher (row : Row) (d : RGB × Nat) (ds : List (RGB × Nat)) :
    get_color_codes (d :: ds) [row] = Except.ok [stripHash row.code] := by
  have h1 : matchStep [row] [] d = Except.ok [stripHash row.code] := by
    simp [matchStep, bestMatch, color_map, pymin, colorMapEntry]
    rfl
  rw [get_color_codes, List.foldlM_cons, h1]
  exact gcc_single_row_aux row ds _ (by simp)

/-- Behaviour of the fold inside `pymin`: the result is either the
starting accumulator (nothing strictly beats it) or the first element
of the list that strictly beats the accumulator and is weakly minimal
overall and strictly below everything before it. -/
theorem pyminNE_spec (key : α → Nat) (t : List α) (acc : α) :
    (pyminNE key acc t = acc ∧ ∀ x ∈ t, key acc ≤ key x) ∨
    (∃ t1 m t2, t = t1 ++ m :: t2 ∧ pyminNE key acc t = m ∧
      key m < key acc ∧ (∀ x ∈ t, key m ≤ key x) ∧ ∀ x ∈ t1, key m < key x) := by
  induction t generalizing acc with
  | nil => exact Or.inl ⟨rfl, by simp⟩
  | cons x t ih =>
    by_cases hx : key x < key acc
    · have hfold : pyminNE key acc (x :: t) = pyminNE key x t := by
        simp [pyminNE, hx]
      rcases ih x with ⟨heq, hall⟩ | ⟨t1, m, t2, ht, heq, hlt, hall, hfirst⟩
      · refine Or.inr ⟨[], x, t, by simp, by rw [hfold, heq], hx, ?_, by simp⟩
        intro y hy
        rcases List.mem_cons.mp hy with rfl | hy
        · exact le_refl _
        · exact hall y hy
      · refine Or.inr ⟨x :: t1, m, t2, by simp [ht], by rw [hfold, heq],
          lt_trans hlt hx, ?_, ?_⟩
        · intro y hy
          rcases List.mem_cons.mp hy with rfl | hy
          · exact le_of_lt hlt
          · exact hall y hy
        · intro y hy
          rcases List.mem_cons.mp hy with rfl | hy
          · exact hlt
          · exact hfirst y hy
    · have hfold : pyminNE key acc (x :: t) = pyminNE key acc t := by
        simp [pyminNE, hx]
      have hax : key acc ≤ key x := le_of_not_lt hx
      rcases ih acc with ⟨heq, hall⟩ | ⟨t1, m, t2, ht, heq, hlt, hall, hfirst⟩
      · refine Or.inl ⟨by rw [hfold, heq], ?_⟩
        intro y hy
        rcases List.mem_cons.mp hy with rfl | hy
        · exact hax
        · exact hall y hy
      · refine Or.inr ⟨x :: t1, m, t2, by simp [ht], by rw [hfold, heq], hlt, ?_, ?_⟩
        · intro y hy
          rcases List.mem_cons.mp hy with rfl | hy
          · exact le_of_lt (lt_of_lt_of_le hlt hax)
          · exact hall y hy
        · intro y hy
          rcases List.mem_cons.mp hy with rfl | hy
          · exact lt_of_lt_of_le hlt hax
          · exact hfirst y hy

/-- Python's stable `min`: the result splits the list, is weakly
minimal, and strictly beats everything before it (first-argmin). -/
theorem pymin_first_argmin (key : α → Nat) (a : α) (t : List α) :
    ∃ l1 m l2, a :: t = l1 ++ m :: l2 ∧ pymin key (a :: t) = some m ∧
      (∀ x ∈ a :: t, key m ≤ key x) ∧ ∀ x ∈ l1, key m < key x := by
  have hp : pymin key (a :: t) = some (pyminNE key a t) := rfl
  rcases pyminNE_spec key t a with ⟨heq, hall⟩ | ⟨t1, m, t2, ht, heq, hlt, hall, hfirst⟩
  · refine ⟨[], a, t, by simp, by rw [hp, heq], ?_, by simp⟩
    intro x hx
    rcases List.mem_cons.mp hx with rfl | hx
    · exact le_refl _
    · exact hall x hx
  · refine ⟨a :: t1, m, t2, by simp [ht], by rw [hp, heq], ?_, ?_⟩
    · intro x hx
      rcases List.mem_cons.mp hx with rfl | hx
      · exact le_of_lt hlt
      · exact hall x hx
    · intro x hx
      rcases List.mem_cons.mp hx with rfl | hx
      · exact hlt
      · exact hfirst x hx

/-- The element Python's `min` returns belongs to the list. -/
theorem pymin_mem (key : α → Nat) (a : α) (t : List α) (m : α)
    (h : pymin key (a :: t) = some m) : m ∈ a :: t := by
  obtain ⟨l1, m', l2, hsplit, hm, -, -⟩ := pymin_first_argmin key a t
  rw [h] at hm
  injection hm with hm'
  subst hm'
  rw [hsplit]
  exact List.mem_append_right l1 (List.mem_cons_self _ _)

/-- The min-fold over a mapped list tracks the min-fold over the
underlying list. -/
theorem pyminNE_map (key : β → Nat) (f : α → β) (a : α) (l : List α) :
    pyminNE key (f a) (l.map f) = f (pyminNE (fun x => key (f x)) a l) := by
  induction l generalizing a with
  | nil => rfl
  | cons x l ih =>
    simp only [List.map_cons, pyminNE, List.foldl_cons]
    by_cases h : key (f x) < key (f a)
    · simpa only [pyminNE, h, if_pos] using ih x
    · simpa only [pyminNE, h, if_neg, not_false_iff] using ih a

/-- The source's `min` over `color_map` is the stable min over the
palette rows under the L1 distance, wrapped as an entry. -/
theorem bestMatch_eq_pymin_rows (d : RGB) (colors : List Row) :
    bestMatch d colors = (pymin (l1dist d) colors).map (colorMapEntry d) := by
  cases colors with
  | nil => rfl
  | cons r rs =>
    show some (pyminNE Entry.distance (colorMapEntry d r)
        (rs.map (colorMapEntry d))) = _
    rw [pyminNE_map]
    rfl

/-- **C8**.  For every sampled detected color and every non-empty
palette, the matcher's `color_map` entry for a row carries the L1
distance `|R_d − R_row| + |G_d − G_row| + |B_d − B_row|` (`l1dist`), and
the `min` call selects the entry of a row of minimal distance that
strictly beats every earlier row — i.e. ties go to the row occurring
first in palette order. -/
theorem matcher_first_argmin (d : RGB) (r0 : Row) (rs : List Row) :
    ∃ p1 row p2, r0 :: rs = p1 ++ row :: p2 ∧
      bestMatch d (r0 :: rs) = some (colorMapEntry d row) ∧
      (∀ q ∈ r0 :: rs, l1dist d row ≤ l1dist d q) ∧
      ∀ q ∈ p1, l1dist d row < l1dist d q := by
  obtain ⟨p1, row, p2, hsplit, hmin, hall, hfirst⟩ :=
    pymin_first_argmin (l1dist d) r0 rs
  refine ⟨p1, row, p2, hsplit, ?_, hall, hfirst⟩
  rw [bestMatch_eq_pymin_rows, hmin]
  rfl

/-- Every element of `firstDedup l` comes from `l`. -/
theorem firstDedup_subset [DecidableEq α] : ∀ (l : List α), firstDedup l ⊆ l
  | [] => by simp [firstDedup]
  | a :: l => by
    rw [firstDedup]
    intro x hx
    rcases List.mem_cons.mp hx with rfl | hx
    · exact List.mem_cons_self _ _
    · exact List.mem_cons_of_mem a
        (List.mem_of_mem_filter (firstDedup_subset _ hx))
termination_by l => l.length
decreasing_by
  simp only [List.length_cons]
  exact Nat.lt_succ_of_le (List.length_filter_le _ _)

/-- `firstDedup` never repeats an element. -/
theorem firstDedup_nodup [DecidableEq α] : ∀ (l : List α), (firstDedup l).Nodup
  | [] => by simp [firstDedup]
  | a :: l => by
    rw [firstDedup]
    refine List.nodup_cons.mpr ⟨?_, firstDedup_nodup _⟩
    intro hmem
    have h1 := firstDedup_subset _ hmem
    have h2 := List.mem_filter.mp h1
    simp at h2
termination_by l => l.length
decreasing_by
  simp only [List.length_cons]
  exact Nat.lt_succ_of_le (List.length_filter_le _ _)

/-- The conditional-append loop of `get_color_codes` (source line 120),
run from any accumulator, appends exactly the first occurrences of the
elements not already present. -/
theorem dedup_foldl_eq [DecidableEq α] :
    ∀ (l acc : List α),
      l.foldl (fun a c => if c ∈ a then a else a ++ [c]) acc
        = acc ++ firstDedup (l.filter fun c => c ∉ acc)
  | [], acc => by simp [firstDedup]
  | c :: l, acc => by
    by_cases hc : c ∈ acc
    · rw [List.foldl_cons, if_pos hc, dedup_foldl_eq l acc,
        List.filter_cons_of_neg (by simp [hc])]
    · rw [List.foldl_cons, if_neg hc, dedup_foldl_eq l (acc ++ [c]),
        List.filter_cons_of_pos (by simp [hc]), firstDedup]
      have hpred : ∀ x : α, (decide (x ∉ acc ++ [c]))
          = ((decide (x ≠ c)) && (decide (x ∉ acc))) := by
        intro x
        by_cases h1 : x = c <;> by_cases h2 : x ∈ acc <;> simp [h1, h2]
      simp only [List.filter_filter, hpred, List.append_assoc,
        List.singleton_append]

/-- With a non-empty palette `get_color_codes` never fails: it is the
pure dedup-append fold over the per-color best-match codes. -/
theorem gcc_ok_of_cons (r0 : Row) (rs : List Row) :
    ∀ (detected : List (RGB × Nat)) (acc : List String),
      detected.foldlM (matchStep (r0 :: rs)) acc =
        Except.ok ((detected.map fun dc => ((bestCode? dc.1 (r0 :: rs)).getD ""))
          |>.foldl (fun a c => if c ∈ a then a else a ++ [c]) acc)
  | [], acc => rfl
  | d :: ds, acc => by
    obtain ⟨e, he⟩ : ∃ e, bestMatch d.1 (r0 :: rs) = some e := ⟨_, rfl⟩
    have hstep : matchStep (r0 :: rs) acc d
        = Except.ok (if e.code ∈ acc then acc else acc ++ [e.code]) := by
      rw [matchStep, he]
      rfl
    rw [List.foldlM_cons, hstep]
    show ds.foldlM _ _ = _
    rw [gcc_ok_of_cons r0 rs ds _]
    simp [bestCode?, he]

/-- With a non-empty palette every detected color produces a code, so
the `filterMap` of optional best codes is a plain `map`. -/
theorem filterMap_bestCode_cons (r0 : Row) (rs : List Row) :
    ∀ detected : List (RGB × Nat),
      (detected.filterMap fun dc => bestCode? dc.1 (r0 :: rs)) =
        detected.map fun dc => (bestCode? dc.1 (r0 :: rs)).getD ""
  | [] => rfl
  | d :: ds => by
    obtain ⟨c, hc⟩ : ∃ c, bestCode? d.1 (r0 :: rs) = some c := ⟨_, rfl⟩
    simp [List.filterMap_cons, hc, filterMap_bestCode_cons r0 rs ds]

/-- **C5**.  For every non-empty palette and every input sequence of
detected colors, the matcher succeeds, its output has no duplicate
codes, every emitted code is the marker-stripped stored code of some
palette row, and the output is exactly the sequence of first
occurrences, in order, of the per-color best-match codes produced while
scanning the input. -/
theorem matcher_invariants (detected : List (RGB × Nat)) (r0 : Row) (rs : List Row) :
    ∃ out, get_color_codes detected (r0 :: rs) = Except.ok out ∧
      out.Nodup ∧
      (∀ c ∈ out, ∃ row ∈ r0 :: rs, c = stripHash row.code) ∧
      out = firstDedup (detected.filterMap fun dc => bestCode? dc.1 (r0 :: rs)) := by
  have hraw := filterMap_bestCode_cons r0 rs detected
  have hrun : get_color_codes detected (r0 :: rs) =
      Except.ok (firstDedup (detected.filterMap fun dc => bestCode? dc.1 (r0 :: rs))) := by
    rw [get_color_codes, gcc_ok_of_cons r0 rs detected [], dedup_foldl_eq, hraw]
    simp
  refine ⟨_, hrun, firstDedup_nodup _, ?_, rfl⟩
  intro c hcmem
  have hcraw := firstDedup_subset _ hcmem
  rw [List.mem_filterMap] at hcraw
  obtain ⟨dc, -, hdc⟩ := hcraw
  rw [bestCode?] at hdc
  obtain ⟨e, he, hcode⟩ := Option.map_eq_some'.mp hdc
  have hemem : e ∈ color_map dc.1 (r0 :: rs) := by
    have : color_map dc.1 (r0 :: rs)
        = colorMapEntry dc.1 r0 :: rs.map (colorMapEntry dc.1) := rfl
    rw [bestMatch, this] at he
    exact pymin_mem _ _ _ _ he
  rw [color_map, List.mem_map] at hemem
  obtain ⟨row, hrow, hrow2⟩ := hemem
  exact ⟨row, hrow, by rw [← hcode, ← hrow2]; rfl⟩

/-- The key sequence after one dict update: bumping an existing key
keeps the keys, a new key is appended. -/
theorem bump_keys (acc : List (RGB × Nat)) (c : RGB) :
    (bump acc c).map Prod.fst =
      if c ∈ acc.map Prod.fst then acc.map Prod.fst
      else acc.map Prod.fst ++ [c] := by
  rw [bump]
  by_cases hc : c ∈ acc.map Prod.fst
  · rw [if_pos hc, if_pos hc, List.map_map]
    refine List.map_congr_left ?_
    intro p _
    by_cases h : p.1 = c <;> simp [h]
  · rw [if_neg hc, if_neg hc, List.map_append]
    rfl

/-- The scan fold's key sequence: the keys already present followed by
the first occurrences of the new colors, in scan order. -/
theorem tally_keys_aux :
    ∀ (l : List RGB) (acc : List (RGB × Nat)),
      (l.foldl bump acc).map Prod.fst
        = acc.map Prod.fst ++ firstDedup (l.filter fun c => c ∉ acc.map Prod.fst)
  | [], acc => by simp [firstDedup]
  | c :: l, acc => by
    rw [List.foldl_cons]
    by_cases hc : c ∈ acc.map Prod.fst
    · rw [tally_keys_aux l (bump acc c), bump_keys, if_pos hc,
        List.filter_cons_of_neg (by simp [hc])]
    · rw [tally_keys_aux l (bump acc c), bump_keys, if_neg hc,
        List.filter_cons_of_pos (by simp [hc]), firstDedup]
      have hpred : ∀ x : RGB, (decide (x ∉ acc.map Prod.fst ++ [c]))
          = ((decide (x ≠ c)) && (decide (x ∉ acc.map Prod.fst))) := by
        intro x
        by_cases h1 : x = c <;> by_cases h2 : x ∈ acc.map Prod.fst <;> simp [h1, h2]
      simp only [List.filter_filter, hpred, List.append_assoc,
        List.singleton_append]

/-- The keys of the tally dict are the colors in order of first
encounter during the scan. -/
theorem tallyMap_keys (img : Nat → Nat → RGB) (w h : Nat) :
    (tallyMap img w h).map Prod.fst = firstDedup (scanColors img w h) := by
  rw [tallyMap, tally_keys_aux]
  simp

/-- One dict update keeps the keys duplicate-free. -/
theorem bump_keys_nodup (acc : List (RGB × Nat)) (c : RGB)
    (h : (acc.map Prod.fst).Nodup) : ((bump acc c).map Prod.fst).Nodup := by
  rw [bump_keys]
  by_cases hc : c ∈ acc.map Prod.fst
  · rwa [if_pos hc]
  · rw [if_neg hc]
    simp [List.nodup_append, h, hc]

/-- Incrementing the (unique) entry of a present key adds one to the
total count. -/
theorem total_map_incr (c : RGB) :
    ∀ (acc : List (RGB × Nat)),
      c ∈ acc.map Prod.fst → (acc.map Prod.fst).Nodup →
      ((acc.map fun p => if p.1 = c then (p.1, p.2 + 1) else p).map Prod.snd).sum
        = (acc.map Prod.snd).sum + 1
  | [], hc, _ => by simp at hc
  | p :: rest, hc, hnd => by
    rw [List.map_cons] at hc hnd
    have hnd' := List.nodup_cons.mp hnd
    rcases List.mem_cons.mp hc with hpc | hrest
    · subst hpc
      have hrestid :
          rest.map (fun q => if q.1 = p.1 then (q.1, q.2 + 1) else q) = rest := by
        have hid : ∀ q ∈ rest, (if q.1 = p.1 then (q.1, q.2 + 1) else q) = q := by
          intro q hq
          rw [if_neg]
          intro hqp
          have hmem : q.1 ∈ rest.map Prod.fst := List.mem_map_of_mem Prod.fst hq
          rw [hqp] at hmem
          exact hnd'.1 hmem
        rw [List.map_congr_left hid]
        exact List.map_id rest
      simp only [List.map_cons, hrestid, List.sum_cons, if_pos]
      omega
    · have hpne : ¬p.1 = c := by
        intro hqc
        rw [hqc] at hnd'
        exact hnd'.1 hrest
      have hrec := total_map_incr c rest hrest hnd'.2
      simp only [List.map_cons, hpne, if_neg, not_false_iff, List.sum_cons, hrec]
      omega

/-- One dict update adds exactly one to the total count. -/
theorem bump_total (acc : List (RGB × Nat)) (c : RGB)
    (h : (acc.map Prod.fst).Nodup) :
    ((bump acc c).map Prod.snd).sum = (acc.map Prod.snd).sum + 1 := by
  rw [bump]
  by_cases hc : c ∈ acc.map Prod.fst
  · rw [if_pos hc]
    exact total_map_incr c acc hc h
  · rw [if_neg hc]
    simp

/-- The scan fold adds one to the total count per scanned pixel. -/
theorem tally_total_aux :
    ∀ (l : List RGB) (acc : List (RGB × Nat)),
      (acc.map Prod.fst).Nodup →
      ((l.foldl bump acc).map Prod.snd).sum = (acc.map Prod.snd).sum + l.length
  | [], _, _ => by simp
  | c :: l, acc, h => by
    rw [List.foldl_cons, tally_total_aux l (bump acc c) (bump_keys_nodup acc c h),
      bump_total acc c h, List.length_cons]
    omega

/-- The scan visits `w * h` pixels. -/
theorem length_scanColors (img : Nat → Nat → RGB) (w h : Nat) :
    (scanColors img w h).length = w * h := by
  rw [scanColors, List.length_map, scanPositions, List.flatMap,
    List.length_flatten, List.map_map]
  have hlen : ∀ x ∈ List.range w,
      (List.length ∘ fun x => (List.range h).map fun y => (x, y)) x = h := by
    intro x _
    simp
  rw [List.map_congr_left hlen, List.map_const', List.length_range,
    List.sum_const_nat]

/-- A color appears in scan order exactly when some pixel has it. -/
theorem mem_scanColors (img : Nat → Nat → RGB) (w h : Nat) (c : RGB) :
    c ∈ scanColors img w h ↔ ∃ x, x < w ∧ ∃ y, y < h ∧ img x y = c := by
  simp only [scanColors, scanPositions, List.mem_map, List.mem_flatMap,
    List.mem_range]
  constructor
  · rintro ⟨a, ⟨x, hx, y, hy, rfl⟩, himg⟩
    exact ⟨x, hx, y, hy, himg⟩
  · rintro ⟨x, hx, y, hy, himg⟩
    exact ⟨(x, y), ⟨x, hx, y, hy, rfl⟩, himg⟩

/-- **C7**.  For every resized-image accessor with dimensions
`w × h`, the counts of the Color Tally output sum to `w * h`, and every
tallied color occurs at some pixel of the resized image. -/
theorem tally_sum_and_presence (img : Nat → Nat → RGB) (w h : Nat) :
    ((detect_colors img w h).map Prod.snd).sum = w * h ∧
    ∀ p ∈ detect_colors img w h, ∃ x, x < w ∧ ∃ y, y < h ∧ img x y = p.1 := by
  constructor
  · have hperm : List.Perm ((tallyMap img w h).mergeSort countDesc)
        (tallyMap img w h) := List.mergeSort_perm _ _
    rw [detect_colors, (hperm.map Prod.snd).sum_eq, tallyMap,
      tally_total_aux _ [] (by simp), ← length_scanColors img w h]
    simp
  · intro p hp
    have hp' : p ∈ tallyMap img w h := List.mem_mergeSort.mp hp
    have hk : p.1 ∈ (tallyMap img w h).map Prod.fst :=
      List.mem_map_of_mem Prod.fst hp'
    rw [tallyMap_keys] at hk
    exact (mem_scanColors img w h p.1).mp (firstDedup_subset _ hk)

/-- `countDesc` is transitive (as a Boolean relation). -/
theorem countDesc_trans (a b c : RGB × Nat) :
    countDesc a b → countDesc b c → countDesc a c := by
  simp only [countDesc, decide_eq_true_eq]
  omega

/-- `countDesc` is total (as a Boolean relation). -/
theorem countDesc_total (a b : RGB × Nat) : countDesc a b || countDesc b a := by
  simp only [countDesc, Bool.or_eq_true, decide_eq_true_eq]
  omega

/-- **C6**.  The Color Tally output is sorted by descending count; for
any count value the entries carrying it appear in exactly their order
in the insertion-ordered tally dict; and the dict's key order is the
order of first encounter during the scan, which runs x-major, y-minor
(`scanPositions`). -/
theorem tally_sorted_stable (img : Nat → Nat → RGB) (w h : Nat) :
    (detect_colors img w h).Pairwise (fun a b => b.2 ≤ a.2) ∧
    (∀ n, (detect_colors img w h).filter (fun p => p.2 = n)
        = (tallyMap img w h).filter (fun p => p.2 = n)) ∧
    (tallyMap img w h).map Prod.fst = firstDedup (scanColors img w h) := by
  refine ⟨?_, ?_, tallyMap_keys img w h⟩
  · have hs := List.sorted_mergeSort countDesc_trans countDesc_total
      (tallyMap img w h)
    rw [detect_colors]
    exact List.Pairwise.imp (fun hab => by simpa [countDesc] using hab) hs
  · intro n
    set pred : RGB × Nat → Bool := fun p => p.2 = n with hpreddef
    set c := (tallyMap img w h).filter pred with hc
    have hsub : List.Sublist c (tallyMap img w h) := List.filter_sublist _
    have hmemn : ∀ p ∈ c, p.2 = n := by
      intro p hpmem
      have := (List.mem_filter.mp hpmem).2
      simpa [hpreddef] using this
    have hpw : c.Pairwise fun a b => countDesc a b = true := by
      refine List.pairwise_of_forall_mem_list ?_
      intro a ha b hb
      simp only [countDesc, decide_eq_true_eq, hmemn a ha, hmemn b hb]
      omega
    have hsl : List.Sublist c ((tallyMap img w h).mergeSort countDesc) :=
      List.sublist_mergeSort countDesc_trans countDesc_total hpw hsub
    have hslf : List.Sublist c
        (((tallyMap img w h).mergeSort countDesc).filter pred) := by
      have hstep := hsl.filter pred
      rwa [List.filter_eq_self.mpr (by intro a ha; simp [hpreddef, hmemn a ha])]
        at hstep
    have hpermf : List.Perm (((tallyMap img w h).mergeSort countDesc).filter pred)
        c := (List.mergeSort_perm (tallyMap img w h) countDesc).filter pred
    rw [detect_colors]
    exact (hslf.eq_of_length hpermf.length_eq.symm).symm

/-- A successful lookup returns a palette row whose stored code is the
marker-prefixed query. -/
theorem lookupRow_mem (cols : List Row) (c : String) (row : Row)
    (h : lookupRow cols c = some row) : row ∈ cols ∧ row.code = "#" ++ c := by
  rw [lookupRow] at h
  have hmem : row ∈ cols.filter fun r => r.code = "#" ++ c := by
    cases hfil : cols.filter fun r => r.code = "#" ++ c with
    | nil =>
      rw [hfil] at h
      exact absurd h (by simp)
    | cons r rest =>
      rw [hfil] at h
      simp only [List.head?_cons, Option.some.injEq] at h
      subst h
      exact List.mem_cons_self _ _
  have hsplit := List.mem_filter.mp hmem
  exact ⟨hsplit.1, by simpa using hsplit.2⟩

/-- If some palette row carries the queried code, lookup succeeds. -/
theorem lookupRow_some_of_mem (cols : List Row) (c : String)
    (h : ∃ row ∈ cols, row.code = "#" ++ c) :
    ∃ row, lookupRow cols c = some row := by
  obtain ⟨row, hmem, hcode⟩ := h
  rw [lookupRow]
  cases hfil : cols.filter fun r => r.code = "#" ++ c with
  | nil =>
    exfalso
    rw [List.filter_eq_nil_iff] at hfil
    exact hfil row hmem (by simp [hcode])
  | cons r rest => exact ⟨r, by simp⟩

/-- When every code has a matching palette row, the resolver loop
returns one `(name, '#' + code)` pair per code, in input order. -/
theorem ga_ok_aux (cols : List Row) :
    ∀ (codes : List String) (acc : List (String × String)),
      (∀ c ∈ codes, ∃ row ∈ cols, row.code = "#" ++ c) →
      codes.foldlM (resolveStep cols) acc
        = Except.ok (acc ++ codes.map fun c => (resolvedName cols c, "#" ++ c))
  | [], acc, _ => by
    rw [List.foldlM_nil, List.map_nil, List.append_nil]
    rfl
  | c :: codes, acc, h => by
    obtain ⟨row, hlr⟩ := lookupRow_some_of_mem cols c (h c (List.mem_cons_self _ _))
    have hstep : resolveStep cols acc c
        = Except.ok (acc ++ [(row.color, "#" ++ c)]) := by
      rw [resolveStep, hlr]
      rfl
    rw [List.foldlM_cons, hstep]
    show codes.foldlM _ _ = _
    rw [ga_ok_aux cols codes _ fun x hx => h x (List.mem_cons_of_mem _ hx)]
    have hname : resolvedName cols c = row.color := by
      rw [resolvedName, hlr]
      rfl
    simp [hname]

/-- When some code lacks a matching palette row, the resolver loop
fails with `UnknownCodeError`. -/
theorem ga_err_aux (cols : List Row) :
    ∀ (codes : List String) (acc : List (String × String)),
      (∃ c ∈ codes, ∀ row ∈ cols, row.code ≠ "#" ++ c) →
      codes.foldlM (resolveStep cols) acc = Except.error ResolveErr.unknownCode
  | [], _, h => by simp at h
  | c :: codes, acc, h => by
    cases hlr : lookupRow cols c with
    | none =>
      have hstep : resolveStep cols acc c = Except.error ResolveErr.unknownCode := by
        rw [resolveStep, hlr]
      rw [List.foldlM_cons, hstep]
      rfl
    | some row =>
      have hstep : resolveStep cols acc c
          = Except.ok (acc ++ [(row.color, "#" ++ c)]) := by
        rw [resolveStep, hlr]
        rfl
      rw [List.foldlM_cons, hstep]
      show codes.foldlM _ _ = _
      obtain ⟨c', hc', habs⟩ := h
      rcases List.mem_cons.mp hc' with rfl | hc'
      · exfalso
        have hrow := lookupRow_mem cols c' row hlr
        exact habs row hrow.1 hrow.2
      · exact ga_err_aux cols codes _ ⟨c', hc', habs⟩

/-- **C4**.  If every input code, prefixed with '#', occurs in the
palette's stored code column, the Name Resolver returns exactly one
`(name, '#' + code)` row per input code, in input order; if some code
does not occur, it raises `UnknownCodeError`. -/
theorem resolver_spec (codes : List String) (cols : List Row) :
    ((∀ c ∈ codes, ∃ row ∈ cols, row.code = "#" ++ c) →
      get_association codes cols
        = Except.ok (codes.map fun c => (resolvedName cols c, "#" ++ c))) ∧
    ((∃ c ∈ codes, ∀ row ∈ cols, row.code ≠ "#" ++ c) →
      get_association codes cols = Except.error ResolveErr.unknownCode) := by
  constructor
  · intro h
    rw [get_association, ga_ok_aux cols codes [] h]
    simp
  · intro h
    exact ga_err_aux cols codes [] h

/-- Witness for `resolver_spec` on a one-code input and a one-row
palette: both implications instantiated, the first discharged. -/
theorem resolver_spec_witness :
    get_association ["ff0000"]
        [{ color := "red", code := "#ff0000", R := 255, G := 0, B := 0 }]
      = Except.ok [("red", "#ff0000")] := by
  have h := (resolver_spec ["ff0000"]
      [{ color := "red", code := "#ff0000", R := 255, G := 0, B := 0 }]).1 (by
    intro c hc
    rcases List.mem_cons.mp hc with rfl | hfalse
    · exact ⟨_, List.mem_cons_self _ _, by decide⟩
    · simp at hfalse)
  rw [h]
  rfl

/-- A zero inner loop visits no position. -/
theorem scanPositions_zero_h (w : Nat) : scanPositions w 0 = [] := by
  rw [List.eq_nil_iff_forall_not_mem]
  intro p hp
  rw [scanPositions] at hp
  simp at hp

/-- With no scan positions the tally — and hence the sorted tally — is
empty. -/
theorem detect_colors_of_no_pixels (img : Nat → Nat → RGB) (w h : Nat)
    (hp : scanPositions w h = []) : detect_colors img w h = [] := by
  rw [detect_colors, tallyMap, scanColors, hp]
  simp

/-- **C10**.  When both original dimensions are at least 1 and the
larger exceeds 100 times the smaller, the resize computation truncates
the scaled smaller dimension to 0: the resized image has zero pixels,
the pixel scan visits nothing, the Color Tally output is empty, and the
pipeline returns an empty report without raising an error at the tally
stage. -/
theorem degenerate_resize_empty (W H : Nat) (img : Nat → Nat → RGB)
    (cols : List Row) (h1 : 1 ≤ min W H) (h2 : 100 * min W H < max W H) :
    min (resize_image W H 100).1 (resize_image W H 100).2 = 0 ∧
    (resize_image W H 100).1 * (resize_image W H 100).2 = 0 ∧
    detect_colors img (resize_image W H 100).1 (resize_image W H 100).2 = [] ∧
    runPipeline img W H cols = Except.ok [] := by
  have hdims : resize_image W H 100 = (0, 100) ∨ resize_image W H 100 = (100, 0) := by
    by_cases hW : W = max W H
    · left
      have hHW : H ≤ W := by
        have := le_max_right W H
        rwa [← hW] at this
      have hminH : min W H = H := min_eq_right hHW
      have hlt : H * 100 < W := by
        have hx := h2
        rw [hminH, ← hW] at hx
        omega
      have hH1 : 1 ≤ H := by
        rw [← hminH]
        exact h1
      have hguard : W > 100 ∨ H > 100 := Or.inl (by omega)
      rw [resize_image, if_pos hguard, if_pos hW, Nat.div_eq_of_lt hlt]
    · right
      have hmax : max W H = H := by
        rcases max_choice W H with hm | hm
        · exact absurd hm.symm hW
        · exact hm
      have hWH : W ≤ H := by
        have := le_max_left W H
        rwa [hmax] at this
      have hminW : min W H = W := min_eq_left hWH
      have hlt : W * 100 < H := by
        have hx := h2
        rw [hminW, hmax] at hx
        omega
      have hW1 : 1 ≤ W := by
        rw [← hminW]
        exact h1
      have hguard : W > 100 ∨ H > 100 := Or.inr (by omega)
      rw [resize_image, if_pos hguard, if_neg hW, Nat.div_eq_of_lt hlt]
  rcases hdims with hd | hd
  · have hdc : detect_colors img 0 100 = [] :=
      detect_colors_of_no_pixels img 0 100 rfl
    refine ⟨by rw [hd]; decide, by rw [hd]; decide, by rw [hd]; exact hdc, ?_⟩
    simp only [runPipeline, hd]
    rw [hdc]
    rfl
  · have hdc : detect_colors img 100 0 = [] :=
      detect_colors_of_no_pixels img 100 0 (scanPositions_zero_h 100)
    refine ⟨by rw [hd]; decide, by rw [hd]; decide, by rw [hd]; exact hdc, ?_⟩
    simp only [runPipeline, hd]
    rw [hdc]
    rfl

/-- Witness for `degenerate_resize_empty` at original dimensions
300 × 2 (aspect ratio above 100): all hypotheses discharged. -/
theorem degenerate_resize_empty_witness :
    (1 ≤ min 300 2 ∧ 100 * min 300 2 < max 300 2) ∧
      (min (resize_image 300 2 100).1 (resize_image 300 2 100).2 = 0 ∧
       (resize_image 300 2 100).1 * (resize_image 300 2 100).2 = 0 ∧
       detect_colors constImg (resize_image 300 2 100).1
         (resize_image 300 2 100).2 = [] ∧
       runPipeline constImg 300 2 [] = Except.ok []) :=
  ⟨⟨by decide, by decide⟩,
    degenerate_resize_empty 300 2 constImg [] (by decide) (by decide)⟩

end ColorVision
